import Mathlib

/-!
Verification of the Quranic pattern-counting script (`src/main.py`).

The program is a linear pipeline: load a text file, normalize it
(optionally remove every codepoint outside the Arabic Unicode block except
whitespace, optionally strip a fixed set of diacritic codepoints, collapse
whitespace runs to single spaces, trim the ends), then count whole-word
regex matches of fixed Arabic target words, and report the counts next to
hardcoded reference numbers.

Texts are embedded as `List Char`.  Character classes used by the Python
runtime (`\s`, `\w`, `str.isalpha`, `str.isspace`) are embedded as explicit
codepoint-range predicates, exact on the ASCII range and on the Arabic
block U+0600..U+06FF (the only codepoints that survive the program's
default normalization) and on all Unicode whitespace; outside those ranges
the word/alpha predicates are `false`, which is the value Python gives for
every codepoint the program's fixed patterns and normalized corpus can
contain.

The fixed patterns all have the shape `\b<word>\b` for a nonempty word of
word-characters.  For such a pattern, two boundary-anchored matches can
never overlap (any later start inside a match is preceded by a word
character, so its left `\b` fails), hence the number of non-overlapping
matches found by `re.findall` equals the number of positions at which the
word occurs with non-word (or absent) neighbours on both sides; the
matcher is embedded by counting those positions.
-/

/-- Unicode whitespace as recognized by Python's `str.isspace`, `str.strip`
and the regex class `\s` (the `Py_UNICODE_ISSPACE` table). -/
def isPySpace (c : Char) : Bool :=
  let n := c.toNat
  (0x9 ≤ n && n ≤ 0xD) || (0x1C ≤ n && n ≤ 0x1F) || n == 0x20 ||
  n == 0x85 || n == 0xA0 || n == 0x1680 || (0x2000 ≤ n && n ≤ 0x200A) ||
  n == 0x2028 || n == 0x2029 || n == 0x202F || n == 0x205F || n == 0x3000

/-- Codepoints of the Arabic Unicode block `U+0600`..`U+06FF`, the range the
normalizer's character class `[^؀-ۿ\s]` keeps (besides whitespace). -/
def isArabicBlock (c : Char) : Bool :=
  0x600 ≤ c.toNat && c.toNat ≤ 0x6FF

/-- Characters kept by the `REMOVE_NON_ARABIC` substitution
`re.sub(r"[^؀-ۿ\s]", "", text)`: the Arabic block plus whitespace. -/
def keepArabicOrWs (c : Char) : Bool :=
  isArabicBlock c || isPySpace c

/-- The diacritic codepoints stripped by the program's
`diacritics_regex = re.compile(r"[ً-ْٰۖ-ۭ]")`. -/
def isDiacritic (c : Char) : Bool :=
  let n := c.toNat
  (0x64B ≤ n && n ≤ 0x652) || n == 0x670 || (0x6D6 ≤ n && n ≤ 0x6ED)

/-- Python's `str.isalpha` (Unicode categories Lu/Ll/Lt/Lm/Lo), embedded
exactly on ASCII and on the Arabic block (letters `U+0620`..`U+064A`,
`U+066E`..`U+066F`, `U+0671`..`U+06D3`, `U+06D5`, `U+06E5`..`U+06E6`,
`U+06EE`..`U+06EF`, `U+06FA`..`U+06FF`), `false` on other codepoints. -/
def isPyAlpha (c : Char) : Bool :=
  let n := c.toNat
  (0x41 ≤ n && n ≤ 0x5A) || (0x61 ≤ n && n ≤ 0x7A) ||
  (0x620 ≤ n && n ≤ 0x64A) || n == 0x66E || n == 0x66F ||
  (0x671 ≤ n && n ≤ 0x6D3) || n == 0x6D5 || n == 0x6E5 || n == 0x6E6 ||
  n == 0x6EE || n == 0x6EF || (0x6FA ≤ n && n ≤ 0x6FF)

/-- Python's regex word character `\w` (alphanumeric or underscore), embedded
exactly on ASCII and on the Arabic block: letters as in `isPyAlpha` plus the
decimal digits `0-9`, `U+0660`..`U+0669`, `U+06F0`..`U+06F9` and `_`. -/
def isWordChar (c : Char) : Bool :=
  let n := c.toNat
  isPyAlpha c || (0x30 ≤ n && n ≤ 0x39) || n == 0x5F ||
  (0x660 ≤ n && n ≤ 0x669) || (0x6F0 ≤ n && n ≤ 0x6F9)

/-!  Configuration flags (module-level constants in the source). -/

/-- Source constant `STRIP_DIACRITICS = True`. -/
def STRIP_DIACRITICS : Bool := true

/-- Source constant `REMOVE_NON_ARABIC = True`. -/
def REMOVE_NON_ARABIC : Bool := true

/-- The three recognized values of the source constant `ALLAH_MODE`. -/
inductive AllahMode where
  | strict
  | expanded
  | both
deriving DecidableEq, Repr

/-- Source constant `ALLAH_MODE = "both"`. -/
def ALLAH_MODE : AllahMode := .both

/-!  The normalizer `preprocess_text`. -/

/-- One pass of `re.sub(r"\s+", " ", text)`: every maximal run of whitespace
characters is replaced by a single ASCII space.  The flag records whether the
previous character was inside a whitespace run (in which case further
whitespace of the same run emits nothing). -/
def collapseAux : Bool → List Char → List Char
  | _, [] => []
  | inWs, c :: rest =>
    if isPySpace c then
      if inWs then collapseAux true rest
      else ' ' :: collapseAux true rest
    else
      c :: collapseAux false rest

/-- `re.sub(r"\s+", " ", text)`. -/
def collapseWs (l : List Char) : List Char := collapseAux false l

/-- Removal of leading whitespace, the left half of Python's `str.strip()`. -/
def lstrip (l : List Char) : List Char := l.dropWhile isPySpace

/-- Removal of trailing whitespace, the right half of Python's `str.strip()`. -/
def rstrip : List Char → List Char
  | [] => []
  | c :: rest =>
    match rstrip rest with
    | [] => if isPySpace c then [] else [c]
    | r => c :: r

/-- Python's `str.strip()`: removal of leading and trailing whitespace. -/
def pyStrip (l : List Char) : List Char := rstrip (lstrip l)

/-- `preprocess_text` from the source, with the two module-level flags made
explicit parameters: optionally keep only Arabic-block characters and
whitespace, optionally strip the diacritic set, then collapse whitespace
runs to single spaces and trim the ends. -/
def preprocess_text (removeNonArabic stripDiacritics : Bool)
    (text : List Char) : List Char :=
  let t1 := if removeNonArabic then text.filter keepArabicOrWs else text
  let t2 := if stripDiacritics then t1.filter (fun c => !isDiacritic c) else t1
  pyStrip (collapseWs t2)

/-!  The matcher. -/

/-- The word `w` occurs as a raw substring of `t` starting at index `i`. -/
def matchesAt (w t : List Char) (i : Nat) : Bool :=
  (t.drop i).take w.length == w

/-- The character of `t` at index `j`, when it exists, is not a word
character (a `\b` boundary condition is satisfied on that side). -/
def nonWordAt (t : List Char) (j : Nat) : Bool :=
  match (t.drop j).head? with
  | some c => !isWordChar c
  | none => true

/-- A whole-word (`\b`-anchored) occurrence of `w` in `t` at index `i`:
the word matches and both neighbours, when they exist, are non-word
characters. -/
def wordOccursAt (w t : List Char) (i : Nat) : Bool :=
  matchesAt w t i && (i == 0 || nonWordAt t (i - 1)) && nonWordAt t (i + w.length)

/-- Number of matches `re.findall` returns for the pattern `\b w \b` on `t`:
the number of boundary-anchored occurrence positions (see the header comment
for why non-overlapping scanning agrees with counting positions here). -/
def countWord (w t : List Char) : Nat :=
  (List.range (t.length + 1)).countP (wordOccursAt w t)

/-- Number of raw (not boundary-anchored) substring occurrences of `w`
in `t`; used only to state corpus-shape side conditions. -/
def substringCount (w t : List Char) : Nat :=
  (List.range (t.length + 1)).countP (matchesAt w t)

/-- `count_occurrences_regex(text, patterns)`: sum over the pattern list of
the per-pattern match counts. -/
def count_occurrences_regex (text : List Char) (patterns : List (List Char)) : Nat :=
  (patterns.map (fun w => countWord w text)).sum

/-!  The fixed pattern words.  Each Python pattern `r"\b<word>\b"` is
represented by its word. -/

/-- Target word of `PATTERN_ISM = [r"\bاسم\b"]`. -/
def ismWord : List Char := "اسم".data

/-- Word of the single strict pattern `r"\bالله\b"`. -/
def allahWord : List Char := "الله".data

/-- Word of the expanded pattern `r"\bاللهم\b"`. -/
def allahummaWord : List Char := "اللهم".data

/-- Word of the expanded pattern `r"\bبالله\b"`. -/
def billahWord : List Char := "بالله".data

/-- Word of the expanded pattern `r"\bوالله\b"`. -/
def wallahWord : List Char := "والله".data

/-- Word of the expanded pattern `r"\bفلله\b"`. -/
def falillahWord : List Char := "فلله".data

/-- Word of the expanded pattern `r"\bتالله\b"`. -/
def tallahWord : List Char := "تالله".data

/-- Target word of `PATTERN_RAHMAN = [r"\bالرحمن\b"]`. -/
def rahmanWord : List Char := "الرحمن".data

/-- Target word of `PATTERN_RAHIM = [r"\bالرحيم\b"]`. -/
def rahimWord : List Char := "الرحيم".data

/-- `PATTERN_ISM` from the source. -/
def PATTERN_ISM : List (List Char) := [ismWord]

/-- `ALLAH_PATTERNS_STRICT` from the source. -/
def ALLAH_PATTERNS_STRICT : List (List Char) := [allahWord]

/-- `ALLAH_PATTERNS_EXPANDED` from the source. -/
def ALLAH_PATTERNS_EXPANDED : List (List Char) :=
  [allahWord, allahummaWord, billahWord, wallahWord, falillahWord, tallahWord]

/-- `PATTERN_RAHMAN` from the source. -/
def PATTERN_RAHMAN : List (List Char) := [rahmanWord]

/-- `PATTERN_RAHIM` from the source. -/
def PATTERN_RAHIM : List (List Char) := [rahimWord]

/-!  Dual-mode Allah counting. -/

/-- The "int or tuple" result of `count_allah`, as a tagged variant. -/
inductive AllahResult where
  | single : Nat → AllahResult
  | dual : Nat → Nat → AllahResult
deriving DecidableEq, Repr

/-- `count_allah(text)`, with the module-level `ALLAH_MODE` made an explicit
parameter: both totals are computed, and the mode selects what is returned
(`strict` and `expanded` return one total, anything else returns the pair). -/
def count_allah (mode : AllahMode) (text : List Char) : AllahResult :=
  let strict_count := count_occurrences_regex text ALLAH_PATTERNS_STRICT
  let expanded_count := count_occurrences_regex text ALLAH_PATTERNS_EXPANDED
  match mode with
  | .strict => .single strict_count
  | .expanded => .single expanded_count
  | .both => .dual strict_count expanded_count

/-!  Self-check, reference numbers, and the top-level run. -/

/-- The fixed invocation phrase from `verify_bismillah_letters`. -/
def bismillah : List Char := "بسم الله الرحمن الرحيم".data

/-- `verify_bismillah_letters()`: normalize the fixed phrase with the
configured flags and count the alphabetic characters. -/
def verify_bismillah_letters : Nat :=
  (preprocess_text REMOVE_NON_ARABIC STRIP_DIACRITICS bismillah).countP isPyAlpha

/-- Decimal digit sum, fuel-driven so that it reduces by computation; with
fuel at least `n` it sums the digits of `n`, mirroring
`sum(map(int, str(n)))`. -/
def digitSumAux : Nat → Nat → Nat
  | 0, _ => 0
  | fuel + 1, n => if n = 0 then 0 else n % 10 + digitSumAux fuel (n / 10)

/-- Cross-sum `sum(map(int, str(n)))` of the decimal digits of `n`. -/
def crossSum (n : Nat) : Nat := digitSumAux n n

/-- Hardcoded reference constant `chapters = 114`. -/
def chapters : Nat := 114

/-- Hardcoded reference constant `verses = 6346`. -/
def verses : Nat := 6346

/-- `cross_sum_verses = sum(map(int, str(verses)))` from `main`. -/
def cross_sum_verses : Nat := crossSum verses

/-- Everything `main` computes and prints for one run, as a record. -/
structure Report where
  bismillah_letter_count : Nat
  ism_count : Nat
  allah_count : AllahResult
  rahman_count : Nat
  rahim_count : Nat
  chapters_out : Nat
  verses_out : Nat
  cross_sum_out : Nat
deriving DecidableEq, Repr

/-- The computation `main` performs on the loaded corpus text: preprocess,
count each target, and attach the hardcoded reference numbers. -/
def runMain (raw : List Char) : Report :=
  let prepped := preprocess_text REMOVE_NON_ARABIC STRIP_DIACRITICS raw
  { bismillah_letter_count := verify_bismillah_letters
    ism_count := count_occurrences_regex prepped PATTERN_ISM
    allah_count := count_allah ALLAH_MODE prepped
    rahman_count := count_occurrences_regex prepped PATTERN_RAHMAN
    rahim_count := count_occurrences_regex prepped PATTERN_RAHIM
    chapters_out := chapters
    verses_out := verses
    cross_sum_out := cross_sum_verses }

/-- The one anticipated failure: the input file is missing or unreadable. -/
inductive FileError where
  | fileNotFound
deriving DecidableEq, Repr

/-- A filesystem, for the purpose of this program: what reading a file
fully returns, or `none` when the file is missing or unreadable. -/
def Filesystem : Type := String → Option (List Char)

/-- `load_text_file(filename)`: read the whole file, raising (modelled as
`Except.error`) when it is missing or unreadable. -/
def load_text_file (fs : Filesystem) (filename : String) :
    Except FileError (List Char) :=
  match fs filename with
  | some contents => .ok contents
  | none => .error .fileNotFound

/-- `main()`: load the fixed relative path and run the pipeline.  The load
error is not caught anywhere, so it propagates out of `main`. -/
def pyMain (fs : Filesystem) : Except FileError Report :=
  match load_text_file fs "quran-simple.txt" with
  | .ok raw => .ok (runMain raw)
  | .error e => .error e

/-- Process exit status of `python3 main.py`: 0 when `main` returns,
1 (the interpreter's uncaught-exception status, nonzero) when the
uncaught error propagates out. -/
def processExitCode (fs : Filesystem) : Nat :=
  match pyMain fs with
  | .ok _ => 0
  | .error _ => 1

/-!  Helper predicates and lemmas about whitespace collapsing and
stripping, used to establish the normalizer's guarantees. -/

/-- A character respects the collapsed-whitespace discipline: if it is
whitespace at all, it is the single ASCII space. -/
def wsNorm (c : Char) : Bool := !isPySpace c || c == ' '

/-- No two adjacent whitespace characters. -/
def noDoubleSpace : List Char → Bool
  | [] => true
  | [_] => true
  | a :: b :: rest => !(isPySpace a && isPySpace b) && noDoubleSpace (b :: rest)

theorem mem_collapseAux {c : Char} :
    ∀ {l : List Char} {b : Bool}, c ∈ collapseAux b l → c = ' ' ∨ c ∈ l := by
  intro l
  induction l with
  | nil => intro b h; simp [collapseAux] at h
  | cons a rest ih =>
    intro b h
    by_cases ha : isPySpace a
    · cases b with
      | true =>
        simp only [collapseAux, ha, if_pos, if_true] at h
        rcases ih h with h1 | h1
        · exact Or.inl h1
        · exact Or.inr (List.mem_cons_of_mem a h1)
      | false =>
        simp only [collapseAux, ha, if_pos, if_false] at h
        rcases List.mem_cons.mp h with h1 | h1
        · exact Or.inl h1
        · rcases ih h1 with h2 | h2
          · exact Or.inl h2
          · exact Or.inr (List.mem_cons_of_mem a h2)
    · simp only [collapseAux, ha, if_neg, ite_false] at h
      rcases List.mem_cons.mp h with h1 | h1
      · exact Or.inr (h1 ▸ List.mem_cons_self a rest)
      · rcases ih h1 with h2 | h2
        · exact Or.inl h2
        · exact Or.inr (List.mem_cons_of_mem a h2)

theorem length_collapseAux_le :
    ∀ (l : List Char) (b : Bool), (collapseAux b l).length ≤ l.length := by
  intro l
  induction l with
  | nil => intro b; simp [collapseAux]
  | cons a rest ih =>
    intro b
    by_cases ha : isPySpace a
    · cases b with
      | true =>
        simp only [collapseAux, ha, if_true]
        exact Nat.le_succ_of_le (ih true)
      | false =>
        simp only [collapseAux, ha, if_true, if_false, List.length_cons]
        exact Nat.succ_le_succ (ih true)
    · simp only [collapseAux, ha, ite_false, List.length_cons]
      exact Nat.succ_le_succ (ih false)

theorem wsNorm_collapseAux {c : Char} :
    ∀ {l : List Char} {b : Bool}, c ∈ collapseAux b l → wsNorm c = true := by
  intro l
  induction l with
  | nil => intro b h; simp [collapseAux] at h
  | cons a rest ih =>
    intro b h
    by_cases ha : isPySpace a
    · cases b with
      | true =>
        simp only [collapseAux, ha, if_true] at h
        exact ih h
      | false =>
        simp only [collapseAux, ha, if_true, if_false] at h
        rcases List.mem_cons.mp h with h1 | h1
        · subst h1; decide
        · exact ih h1
    · simp only [collapseAux, ha, ite_false] at h
      rcases List.mem_cons.mp h with h1 | h1
      · subst h1; simp [wsNorm, ha]
      · exact ih h1

theorem head_collapseAux_true_not_space :
    ∀ (l : List Char) (c : Char),
      (collapseAux true l).head? = some c → isPySpace c = false := by
  intro l
  induction l with
  | nil => intro c h; simp [collapseAux] at h
  | cons a rest ih =>
    intro c h
    by_cases ha : isPySpace a
    · simp only [collapseAux, ha, if_true] at h
      exact ih c h
    · simp [collapseAux, ha] at h
      subst h
      simpa using ha

theorem noDoubleSpace_tail {a : Char} {l : List Char} :
    noDoubleSpace (a :: l) = true → noDoubleSpace l = true := by
  cases l with
  | nil => intro _; rfl
  | cons b rest => intro h; exact (Bool.and_eq_true .. ▸ h).2

theorem noDoubleSpace_cons_of {a : Char} {l : List Char}
    (hl : noDoubleSpace l = true)
    (hh : ∀ c, l.head? = some c → (isPySpace a && isPySpace c) = false) :
    noDoubleSpace (a :: l) = true := by
  cases l with
  | nil => rfl
  | cons b rest =>
    simp only [noDoubleSpace, Bool.and_eq_true]
    exact ⟨by simp [hh b rfl], hl⟩

theorem noDoubleSpace_head_of_space {a : Char} {l : List Char}
    (h : noDoubleSpace (a :: l) = true) (ha : isPySpace a = true) :
    ∀ c, l.head? = some c → isPySpace c = false := by
  cases l with
  | nil => intro c hc; simp at hc
  | cons b rest =>
    intro c hc
    simp only [List.head?_cons, Option.some.injEq] at hc
    subst hc
    have := (Bool.and_eq_true .. ▸ h).1
    simp only [ha, Bool.true_and, Bool.not_eq_true'] at this
    exact this

theorem noDoubleSpace_collapseAux :
    ∀ (l : List Char) (b : Bool), noDoubleSpace (collapseAux b l) = true := by
  intro l
  induction l with
  | nil => intro b; rfl
  | cons a rest ih =>
    intro b
    by_cases ha : isPySpace a
    · cases b with
      | true => simpa only [collapseAux, ha, if_true] using ih true
      | false =>
        simp only [collapseAux, ha, if_true, if_false]
        refine noDoubleSpace_cons_of (ih true) ?_
        intro c hc
        have := head_collapseAux_true_not_space rest c hc
        simp [this]
    · simp only [collapseAux, ha, ite_false]
      refine noDoubleSpace_cons_of (ih false) ?_
      intro c _
      simp [ha]

theorem collapseAux_true_eq_false {l : List Char}
    (h : ∀ c, l.head? = some c → isPySpace c = false) :
    collapseAux true l = collapseAux false l := by
  cases l with
  | nil => rfl
  | cons a rest =>
    have ha := h a rfl
    simp [collapseAux, ha]

theorem collapseAux_false_fix :
    ∀ {l : List Char}, (∀ c ∈ l, wsNorm c = true) → noDoubleSpace l = true →
      collapseAux false l = l := by
  intro l
  induction l with
  | nil => intro _ _; rfl
  | cons a rest ih =>
    intro hws hnd
    by_cases ha : isPySpace a
    · have haSp : a = ' ' := by
        have := hws a (List.mem_cons_self a rest)
        simp only [wsNorm, ha, Bool.not_true, Bool.false_or, beq_iff_eq] at this
        exact this
      have hrest := noDoubleSpace_head_of_space hnd ha
      have htail := ih (fun c hc => hws c (List.mem_cons_of_mem a hc))
        (noDoubleSpace_tail hnd)
      simp [collapseAux, ha, collapseAux_true_eq_false hrest, htail, haSp]
    · have htail := ih (fun c hc => hws c (List.mem_cons_of_mem a hc))
        (noDoubleSpace_tail hnd)
      simp [collapseAux, ha, htail]

theorem mem_rstrip {c : Char} : ∀ {l : List Char}, c ∈ rstrip l → c ∈ l := by
  intro l
  induction l with
  | nil => intro h; simp [rstrip] at h
  | cons a rest ih =>
    intro h
    cases hr : rstrip rest with
    | nil =>
      rw [rstrip, hr] at h
      by_cases ha : isPySpace a
      · simp [ha] at h
      · simp [ha] at h
        exact h ▸ List.mem_cons_self a rest
    | cons b r =>
      rw [rstrip, hr] at h
      rcases List.mem_cons.mp h with h1 | h1
      · exact h1 ▸ List.mem_cons_self a rest
      · exact List.mem_cons_of_mem a (ih (hr ▸ h1))

theorem length_rstrip_le : ∀ (l : List Char), (rstrip l).length ≤ l.length := by
  intro l
  induction l with
  | nil => simp [rstrip]
  | cons a rest ih =>
    cases hr : rstrip rest with
    | nil =>
      rw [rstrip, hr]
      by_cases ha : isPySpace a <;> simp [ha]
    | cons b r =>
      rw [rstrip, hr, List.length_cons]
      exact Nat.succ_le_succ (hr ▸ ih)

theorem head?_rstrip (l : List Char) :
    rstrip l = [] ∨ (rstrip l).head? = l.head? := by
  cases l with
  | nil => exact Or.inl rfl
  | cons a rest =>
    cases hr : rstrip rest with
    | nil =>
      rw [rstrip, hr]
      by_cases ha : isPySpace a
      · simp [ha]
      · simp [ha]
    | cons b r =>
      rw [rstrip, hr]
      exact Or.inr rfl

theorem noDoubleSpace_rstrip :
    ∀ {l : List Char}, noDoubleSpace l = true → noDoubleSpace (rstrip l) = true := by
  intro l
  induction l with
  | nil => intro _; rfl
  | cons a rest ih =>
    intro h
    cases hr : rstrip rest with
    | nil =>
      rw [rstrip, hr]
      by_cases ha : isPySpace a <;> simp [ha, noDoubleSpace]
    | cons b r =>
      rw [rstrip, hr]
      refine noDoubleSpace_cons_of (hr ▸ ih (noDoubleSpace_tail h)) ?_
      intro c hc
      rcases head?_rstrip rest with h1 | h1
      · rw [h1] at hr; cases hr
      · rw [hr] at h1
        cases rest with
        | nil => simp [rstrip] at hr
        | cons d rest2 =>
          simp only [List.head?_cons, Option.some.injEq] at h1 hc
          subst hc
          subst h1
          have hd := (Bool.and_eq_true .. ▸ h).1
          exact (Bool.not_eq_true' _) ▸ hd

theorem getLast?_rstrip_not_space :
    ∀ (l : List Char) (c : Char),
      (rstrip l).getLast? = some c → isPySpace c = false := by
  intro l
  induction l with
  | nil => intro c h; simp [rstrip] at h
  | cons a rest ih =>
    intro c h
    cases hr : rstrip rest with
    | nil =>
      rw [rstrip, hr] at h
      by_cases ha : isPySpace a
      · simp [ha] at h
      · simp [ha] at h
        subst h
        simpa using ha
    | cons b r =>
      rw [rstrip, hr, List.getLast?_cons_cons] at h
      exact ih c (hr ▸ h)

theorem rstrip_fix :
    ∀ {l : List Char}, (∀ c, l.getLast? = some c → isPySpace c = false) →
      rstrip l = l := by
  intro l
  induction l with
  | nil => intro _; rfl
  | cons a rest ih =>
    intro h
    cases rest with
    | nil =>
      have ha := h a rfl
      simp [rstrip, ha]
    | cons b rest2 =>
      have htail : rstrip (b :: rest2) = b :: rest2 :=
        ih (fun c hc => h c (by rw [List.getLast?_cons_cons]; exact hc))
      rw [rstrip, htail]

theorem head?_lstrip_not_space (l : List Char) (c : Char)
    (h : (lstrip l).head? = some c) : isPySpace c = false := by
  have := List.head?_dropWhile_not isPySpace l
  rw [lstrip] at h
  rw [h] at this
  exact this

theorem noDoubleSpace_dropWhile (p : Char → Bool) :
    ∀ {l : List Char}, noDoubleSpace l = true →
      noDoubleSpace (l.dropWhile p) = true := by
  intro l
  induction l with
  | nil => intro _; rfl
  | cons a rest ih =>
    intro h
    rw [List.dropWhile_cons]
    by_cases ha : p a
    · simp only [ha, if_true]
      exact ih (noDoubleSpace_tail h)
    · simpa [ha] using h

theorem lstrip_fix {l : List Char}
    (h : ∀ c, l.head? = some c → isPySpace c = false) : lstrip l = l := by
  cases l with
  | nil => rfl
  | cons a rest =>
    have ha := h a rfl
    simp [lstrip, List.dropWhile_cons, ha]

/-- The shape of any string the normalizer's collapse-and-strip tail
produces: whitespace only as single interior ASCII spaces. -/
def IsNormalized (l : List Char) : Prop :=
  (∀ c ∈ l, wsNorm c = true) ∧ noDoubleSpace l = true ∧
  (∀ c, l.head? = some c → isPySpace c = false) ∧
  (∀ c, l.getLast? = some c → isPySpace c = false)

theorem mem_pyStrip_collapseWs {c : Char} {t : List Char}
    (h : c ∈ pyStrip (collapseWs t)) : c = ' ' ∨ c ∈ t := by
  have h1 : c ∈ lstrip (collapseWs t) := mem_rstrip h
  have h2 : c ∈ collapseWs t := List.dropWhile_subset isPySpace h1
  exact mem_collapseAux h2

theorem isNormalized_pyStrip_collapseWs (t : List Char) :
    IsNormalized (pyStrip (collapseWs t)) := by
  refine ⟨?_, ?_, ?_, ?_⟩
  · intro c hc
    have h1 : c ∈ collapseWs t :=
      List.dropWhile_subset isPySpace (mem_rstrip hc)
    exact wsNorm_collapseAux h1
  · exact noDoubleSpace_rstrip
      (noDoubleSpace_dropWhile isPySpace (noDoubleSpace_collapseAux t false))
  · intro c hc
    rcases head?_rstrip (lstrip (collapseWs t)) with h1 | h1
    · rw [pyStrip, h1] at hc; cases hc
    · rw [pyStrip, h1] at hc
      exact head?_lstrip_not_space (collapseWs t) c hc
  · intro c hc
    exact getLast?_rstrip_not_space (lstrip (collapseWs t)) c hc

theorem pyStrip_collapseWs_fix {l : List Char} (h : IsNormalized l) :
    pyStrip (collapseWs l) = l := by
  obtain ⟨hws, hnd, hhd, hlast⟩ := h
  rw [collapseWs, collapseAux_false_fix hws hnd, pyStrip, lstrip_fix hhd,
    rstrip_fix hlast]

theorem filter_pyStrip_collapseWs {p : Char → Bool} {t : List Char}
    (hsp : p ' ' = true) (ht : ∀ c ∈ t, p c = true) :
    (pyStrip (collapseWs t)).filter p = pyStrip (collapseWs t) := by
  rw [List.filter_eq_self]
  intro c hc
  rcases mem_pyStrip_collapseWs hc with h1 | h1
  · exact h1 ▸ hsp
  · exact ht c h1

/-- Claim C5: the normalizer is idempotent — for every input string and
every combination of the two configuration flags, applying
`preprocess_text` twice yields the same string as applying it once. -/
theorem preprocess_text_idempotent (removeNonArabic stripDiacritics : Bool)
    (t : List Char) :
    preprocess_text removeNonArabic stripDiacritics
      (preprocess_text removeNonArabic stripDiacritics t) =
    preprocess_text removeNonArabic stripDiacritics t := by
  rw [preprocess_text]
  set t1 := if removeNonArabic then t.filter keepArabicOrWs else t with ht1
  set t2 := if stripDiacritics then t1.filter (fun c => !isDiacritic c) else t1
    with ht2
  have ht2mem : ∀ c ∈ t2, (removeNonArabic = true → keepArabicOrWs c = true) ∧
      (stripDiacritics = true → (!isDiacritic c) = true) := by
    intro c hc
    have hct1 : c ∈ t1 := by
      rw [ht2] at hc
      cases stripDiacritics with
      | true => simp at hc; exact hc.1
      | false => simpa using hc
    constructor
    · intro hrm
      rw [ht1, hrm] at hct1
      simp at hct1
      exact hct1.2
    · intro hsd
      rw [ht2, hsd] at hc
      simp at hc
      simp [hc.2]
  have humem : ∀ c ∈ pyStrip (collapseWs t2),
      (removeNonArabic = true → keepArabicOrWs c = true) ∧
      (stripDiacritics = true → (!isDiacritic c) = true) := by
    intro c hc
    rcases mem_pyStrip_collapseWs hc with h1 | h1
    · subst h1
      exact ⟨fun _ => by decide, fun _ => by decide⟩
    · exact ht2mem c h1
  show preprocess_text removeNonArabic stripDiacritics (pyStrip (collapseWs t2)) = _
  rw [preprocess_text]
  have hstep1 :
      (if removeNonArabic then (pyStrip (collapseWs t2)).filter keepArabicOrWs
        else pyStrip (collapseWs t2)) = pyStrip (collapseWs t2) := by
    cases hrm : removeNonArabic with
    | false => simp
    | true =>
      simp only [if_true]
      rw [List.filter_eq_self]
      intro c hc
      exact (humem c hc).1 hrm
  have hstep2 :
      (if stripDiacritics
        then (pyStrip (collapseWs t2)).filter (fun c => !isDiacritic c)
        else pyStrip (collapseWs t2)) = pyStrip (collapseWs t2) := by
    cases hsd : stripDiacritics with
    | false => simp
    | true =>
      simp only [if_true]
      rw [List.filter_eq_self]
      intro c hc
      exact (humem c hc).2 hsd
  simp only [hstep1, hstep2]
  exact pyStrip_collapseWs_fix (isNormalized_pyStrip_collapseWs t2)

/-- Claim C3: with both default flags enabled, the normalizer's output
contains no diacritic codepoints (the set the program strips) and no
character outside the Arabic block plus whitespace. -/
theorem preprocess_text_default_output_clean (t : List Char) :
    (preprocess_text true true t).all
      (fun c => !isDiacritic c && (isArabicBlock c || isPySpace c)) = true := by
  rw [List.all_eq_true]
  intro c hc
  have hc2 : c = ' ' ∨ c ∈ (t.filter keepArabicOrWs).filter (fun c => !isDiacritic c) := by
    have : preprocess_text true true t =
        pyStrip (collapseWs ((t.filter keepArabicOrWs).filter (fun c => !isDiacritic c))) := by
      simp [preprocess_text]
    exact mem_pyStrip_collapseWs (this ▸ hc)
  rcases hc2 with h1 | h1
  · subst h1; decide
  · simp only [List.mem_filter] at h1
    obtain ⟨⟨_, hkeep⟩, hdia⟩ := h1
    rw [keepArabicOrWs] at hkeep
    simp only [Bool.and_eq_true]
    exact ⟨hdia, hkeep⟩

/-- The set of characters a given flag configuration allows in the
normalizer's output: with non-Arabic removal enabled only Arabic-block
characters and whitespace, with diacritic stripping enabled nothing from
the stripped diacritic set. -/
def allowedChar (removeNonArabic stripDiacritics : Bool) (c : Char) : Bool :=
  (!removeNonArabic || keepArabicOrWs c) && (!stripDiacritics || !isDiacritic c)

/-- Claim C6: for every input and every flag configuration the normalizer
never lengthens the string and every output character lies in the allowed
set of that configuration. -/
theorem preprocess_text_length_and_allowed
    (removeNonArabic stripDiacritics : Bool) (t : List Char) :
    (preprocess_text removeNonArabic stripDiacritics t).length ≤ t.length ∧
    (preprocess_text removeNonArabic stripDiacritics t).all
      (allowedChar removeNonArabic stripDiacritics) = true := by
  rw [preprocess_text]
  set t1 := if removeNonArabic then t.filter keepArabicOrWs else t with ht1
  set t2 := if stripDiacritics then t1.filter (fun c => !isDiacritic c) else t1
    with ht2
  constructor
  · have l1 : t1.length ≤ t.length := by
      rw [ht1]
      cases removeNonArabic with
      | true => simpa using List.length_filter_le keepArabicOrWs t
      | false => simp
    have l2 : t2.length ≤ t1.length := by
      rw [ht2]
      cases stripDiacritics with
      | true => simpa using List.length_filter_le (fun c => !isDiacritic c) t1
      | false => simp
    have l3 : (pyStrip (collapseWs t2)).length ≤ t2.length := by
      calc (pyStrip (collapseWs t2)).length
          ≤ (lstrip (collapseWs t2)).length := length_rstrip_le _
        _ ≤ (collapseWs t2).length := (List.dropWhile_sublist isPySpace).length_le
        _ ≤ t2.length := length_collapseAux_le t2 false
    exact Nat.le_trans l3 (Nat.le_trans l2 l1)
  · rw [List.all_eq_true]
    intro c hc
    rcases mem_pyStrip_collapseWs hc with h1 | h1
    · subst h1
      rw [allowedChar]
      cases removeNonArabic <;> cases stripDiacritics <;> decide
    · have hct1 : c ∈ t1 := by
        rw [ht2] at h1
        cases stripDiacritics with
        | true => simp at h1; exact h1.1
        | false => simpa using h1
      rw [allowedChar, Bool.and_eq_true]
      constructor
      · cases hrm : removeNonArabic with
        | false => rfl
        | true =>
          rw [ht1, hrm] at hct1
          simp at hct1
          simp [hct1.2]
      · cases hsd : stripDiacritics with
        | false => rfl
        | true =>
          rw [ht2, hsd] at h1
          simp at h1
          simp [h1.2]

/-- The word `w` appears in `t` only embedded in longer tokens: every raw
substring occurrence has a word character directly before it or directly
after it (so no occurrence is boundary-delimited on both sides). -/
def embeddedOnly (w t : List Char) : Bool :=
  (List.range (t.length + 1)).all fun i =>
    !matchesAt w t i || (!(i == 0) && !nonWordAt t (i - 1)) ||
      !nonWordAt t (i + w.length)

theorem countWord_eq_zero_of_embeddedOnly {w t : List Char}
    (h : embeddedOnly w t = true) : countWord w t = 0 := by
  rw [countWord, List.countP_eq_zero]
  intro i hi
  have hd := (List.all_eq_true.mp h) i hi
  clear h
  cases hm : matchesAt w t i <;>
    cases hz : (i == 0) <;>
      cases hb : nonWordAt t (i - 1) <;>
        cases ha : nonWordAt t (i + w.length) <;>
          simp_all [wordOccursAt]

/-- Claim C4: a target word appearing in a text only as a proper part of
longer tokens (never with boundaries on both sides) contributes 0 to its
pattern list's summed count — the sum with the word's pattern included
equals the sum without it. -/
theorem embedded_word_contributes_zero (t w : List Char)
    (pats : List (List Char)) (h : embeddedOnly w t = true) :
    count_occurrences_regex t (w :: pats) = count_occurrences_regex t pats := by
  rw [count_occurrences_regex, count_occurrences_regex, List.map_cons,
    List.sum_cons, countWord_eq_zero_of_embeddedOnly h, Nat.zero_add]

/-- Witness for claim C4 at a concrete input: in the single token والله the
target word الله occurs (once, as a raw substring) but only embedded, so the
pattern list `ALLAH_PATTERNS_STRICT = [الله]` counts 0 on it. -/
theorem embedded_word_contributes_zero_witness :
    embeddedOnly allahWord wallahWord = true ∧
    substringCount allahWord wallahWord = 1 ∧
    count_occurrences_regex wallahWord (allahWord :: []) =
      count_occurrences_regex wallahWord [] := by
  refine ⟨by decide, by decide, ?_⟩
  exact embedded_word_contributes_zero wallahWord allahWord [] (by decide)

/-- Claim C7: `count_allah` computes the strict total (the whole-word count
of الله) and the expanded total (the sum of the whole-word counts of the six
expanded patterns), returns only the strict total in `strict` mode, only the
expanded total in `expanded` mode, and the pair `(strict, expanded)` in
`both` mode. -/
theorem count_allah_mode_selector (t : List Char) :
    count_allah AllahMode.strict t = AllahResult.single (countWord allahWord t) ∧
    count_allah AllahMode.expanded t =
      AllahResult.single (countWord allahWord t + (countWord allahummaWord t +
        (countWord billahWord t + (countWord wallahWord t +
          (countWord falillahWord t + countWord tallahWord t))))) ∧
    count_allah AllahMode.both t =
      AllahResult.dual (countWord allahWord t)
        (countWord allahWord t + (countWord allahummaWord t +
          (countWord billahWord t + (countWord wallahWord t +
            (countWord falillahWord t + countWord tallahWord t))))) := by
  refine ⟨?_, ?_, ?_⟩ <;>
    simp [count_allah, count_occurrences_regex, ALLAH_PATTERNS_STRICT,
      ALLAH_PATTERNS_EXPANDED]

/-- Claim C10: the strict Allah total never exceeds the expanded total,
because the strict pattern is also the first expanded pattern and the
per-pattern counts are summed; in `both` mode the returned pair is exactly
`(strict total, expanded total)`. -/
theorem strict_total_le_expanded_total (t : List Char) :
    count_occurrences_regex t ALLAH_PATTERNS_STRICT ≤
      count_occurrences_regex t ALLAH_PATTERNS_EXPANDED ∧
    count_allah AllahMode.both t =
      AllahResult.dual (count_occurrences_regex t ALLAH_PATTERNS_STRICT)
        (count_occurrences_regex t ALLAH_PATTERNS_EXPANDED) := by
  constructor
  · simp only [count_occurrences_regex, ALLAH_PATTERNS_STRICT,
      ALLAH_PATTERNS_EXPANDED, List.map_cons, List.map_nil, List.sum_cons,
      List.sum_nil]
    omega
  · rfl

/-- Claim C1: the fixed invocation phrase, normalized with the default
configuration, has exactly 19 alphabetic characters. -/
theorem verify_bismillah_letters_eq_19 : verify_bismillah_letters = 19 := by
  decide

/-- Claim C9: the digit cross-sum the program computes for the hardcoded
verse count 6346 equals 19. -/
theorem cross_sum_verses_eq_19 : verses = 6346 ∧ cross_sum_verses = 19 := by
  constructor
  · rfl
  · decide

/-!  End-to-end corpus scenario (claim C2).

A corpus with exactly one isolated (whole-word) instance of each target
word plus one instance of each target embedded inside a longer token does
NOT always report 1 for every count: when the embedding token for الله is
itself one of the expanded variants (here والله), the expanded Allah total
counts it as a match of its own pattern and reports 2. -/

/-- A corpus with one isolated instance of each target and one embedded
instance of each, where الله is embedded inside والله — which is itself an
expanded Allah pattern. -/
def corpusVariantEmbedding : List Char :=
  "اسم باسم الله والله الرحمن والرحمن الرحيم والرحيم".data

/-- A corpus with one isolated instance of each target and one embedded
instance of each (اسم in باسم, الله in واللهي, الرحمن in والرحمن, الرحيم in
والرحيم), none of whose tokens is an expanded Allah variant. -/
def corpusPlainEmbedding : List Char :=
  "اسم باسم الله واللهي الرحمن والرحمن الرحيم والرحيم".data

/-- Counterexample to claim C2 as stated: `corpusVariantEmbedding`
satisfies the scenario's precondition — after default normalization each
target word has exactly two raw substring occurrences, exactly one of them
whole-word (the other is embedded in a longer token) — yet the reported
dual-mode Allah count is `(1, 2)`: the expanded total is 2, not 1. -/
theorem corpus_scenario_counterexample :
    (substringCount ismWord
        (preprocess_text REMOVE_NON_ARABIC STRIP_DIACRITICS corpusVariantEmbedding) = 2 ∧
      countWord ismWord
        (preprocess_text REMOVE_NON_ARABIC STRIP_DIACRITICS corpusVariantEmbedding) = 1) ∧
    (substringCount allahWord
        (preprocess_text REMOVE_NON_ARABIC STRIP_DIACRITICS corpusVariantEmbedding) = 2 ∧
      countWord allahWord
        (preprocess_text REMOVE_NON_ARABIC STRIP_DIACRITICS corpusVariantEmbedding) = 1) ∧
    (substringCount rahmanWord
        (preprocess_text REMOVE_NON_ARABIC STRIP_DIACRITICS corpusVariantEmbedding) = 2 ∧
      countWord rahmanWord
        (preprocess_text REMOVE_NON_ARABIC STRIP_DIACRITICS corpusVariantEmbedding) = 1) ∧
    (substringCount rahimWord
        (preprocess_text REMOVE_NON_ARABIC STRIP_DIACRITICS corpusVariantEmbedding) = 2 ∧
      countWord rahimWord
        (preprocess_text REMOVE_NON_ARABIC STRIP_DIACRITICS corpusVariantEmbedding) = 1) ∧
    (runMain corpusVariantEmbedding).ism_count = 1 ∧
    (runMain corpusVariantEmbedding).rahman_count = 1 ∧
    (runMain corpusVariantEmbedding).rahim_count = 1 ∧
    (runMain corpusVariantEmbedding).allah_count = AllahResult.dual 1 2 := by
  decide

/-- Claim C2 as amended: in the one-isolated-plus-one-embedded scenario,
if additionally no whole-word occurrence of any expanded Allah variant
(اللهم, بالله, والله, فلله, تالله) is present in the normalized corpus —
i.e. no embedding token is itself an expanded variant — then every
reported count, including both components of the dual-mode Allah count,
is exactly 1. -/
theorem corpus_scenario_counts_one (raw p : List Char)
    (hp : preprocess_text REMOVE_NON_ARABIC STRIP_DIACRITICS raw = p)
    (_hIsmSub : substringCount ismWord p = 2) (hIsm : countWord ismWord p = 1)
    (_hAllahSub : substringCount allahWord p = 2) (hAllah : countWord allahWord p = 1)
    (_hRahmanSub : substringCount rahmanWord p = 2) (hRahman : countWord rahmanWord p = 1)
    (_hRahimSub : substringCount rahimWord p = 2) (hRahim : countWord rahimWord p = 1)
    (hv1 : countWord allahummaWord p = 0) (hv2 : countWord billahWord p = 0)
    (hv3 : countWord wallahWord p = 0) (hv4 : countWord falillahWord p = 0)
    (hv5 : countWord tallahWord p = 0) :
    (runMain raw).ism_count = 1 ∧
    (runMain raw).allah_count = AllahResult.dual 1 1 ∧
    (runMain raw).rahman_count = 1 ∧
    (runMain raw).rahim_count = 1 := by
  simp only [runMain, hp, count_allah, count_occurrences_regex, PATTERN_ISM,
    PATTERN_RAHMAN, PATTERN_RAHIM, ALLAH_PATTERNS_STRICT,
    ALLAH_PATTERNS_EXPANDED, ALLAH_MODE, List.map_cons, List.map_nil,
    List.sum_cons, List.sum_nil, hIsm, hAllah, hRahman, hRahim, hv1, hv2,
    hv3, hv4, hv5]
  exact ⟨rfl, rfl, rfl, rfl⟩

/-- Witness for the amended claim C2 at the concrete corpus
`corpusPlainEmbedding`: all scenario side conditions hold and every count
is 1. -/
theorem corpus_scenario_counts_one_witness :
    countWord allahWord
      (preprocess_text REMOVE_NON_ARABIC STRIP_DIACRITICS corpusPlainEmbedding) = 1 ∧
    (runMain corpusPlainEmbedding).ism_count = 1 ∧
    (runMain corpusPlainEmbedding).allah_count = AllahResult.dual 1 1 ∧
    (runMain corpusPlainEmbedding).rahman_count = 1 ∧
    (runMain corpusPlainEmbedding).rahim_count = 1 := by
  refine ⟨by decide, ?_⟩
  exact corpus_scenario_counts_one corpusPlainEmbedding
    (preprocess_text REMOVE_NON_ARABIC STRIP_DIACRITICS corpusPlainEmbedding)
    rfl (by decide) (by decide) (by decide) (by decide) (by decide)
    (by decide) (by decide) (by decide) (by decide) (by decide) (by decide)
    (by decide) (by decide)

/-- Claim C8: the file-load failure is not caught anywhere — it propagates
out of `main` and the process exits nonzero — while a run whose input file
is readable produces the report and exits 0. -/
theorem load_failure_propagates (fs : Filesystem) :
    (fs "quran-simple.txt" = none →
      pyMain fs = Except.error FileError.fileNotFound ∧ processExitCode fs ≠ 0) ∧
    (∀ raw, fs "quran-simple.txt" = some raw →
      pyMain fs = Except.ok (runMain raw) ∧ processExitCode fs = 0) := by
  constructor
  · intro hnone
    rw [processExitCode, pyMain, load_text_file, hnone]
    exact ⟨rfl, by decide⟩
  · intro raw hsome
    rw [processExitCode, pyMain, load_text_file, hsome]
    exact ⟨rfl, rfl⟩

/-- Witness for claim C8 at two concrete filesystems: one where the fixed
input path is unreadable (error propagates, exit 1) and one where it reads
an empty file (report produced, exit 0). -/
theorem load_failure_propagates_witness :
    (pyMain (fun _ => none) = Except.error FileError.fileNotFound ∧
      processExitCode (fun _ => none) ≠ 0) ∧
    (pyMain (fun _ => some []) = Except.ok (runMain []) ∧
      processExitCode (fun _ => some []) = 0) :=
  ⟨(load_failure_propagates (fun _ => none)).1 rfl,
    (load_failure_propagates (fun _ => some [])).2 [] rfl⟩
